import Mathlib

/-!
Verification of the yamc-oracle log-extraction and flow-correlation core.

The development shallowly embeds the Python sources:
  * `src/yamc_oracle/log/logreader.py`  (FieldRules, LogEntry, LogReader.find, LogReader.read)
  * `src/yamc_oracle/log/outlog.py`     (OutLogEntry.parse_header, EntryGroup)
  * `src/yamc_oracle/providers/soaoutlog.py` (GroupEntry, SOAOutLogProvider.update)

Modelling conventions:
  * Files are ASCII strings, so Python's byte offsets coincide with character
    offsets after UTF-8 decoding.
  * `datetime` values are natural numbers.  The configurable datetime format
    is specialised to "a nonempty all-digit token": `strptime` succeeds exactly
    on such tokens and yields the corresponding Nat.  Timestamp comparison is
    Nat comparison.
  * Regular expression patterns are specialised to literal strings: a compiled
    pattern `p` matches a string `s` at position `i` iff `p` occurs literally
    at some index `>= i`, and the matched substring (`m.group()`) is `p`
    itself.  Literal strings are regexes, so this is a faithful special case.
  * Python dicts with insertion order are modelled as association lists where
    assignment to an existing key replaces the value in place.
-/

namespace YamcOracle

/-! ### Literal-pattern search primitives -/

/-- `isSubstring pat s` is true iff `pat` occurs contiguously in `s`
(the literal-pattern specialisation of `re.search`). -/
def isSubstring (pat : List Char) : List Char → Bool
  | [] => pat.isEmpty
  | c :: rest => pat.isPrefixOf (c :: rest) || isSubstring pat rest

/-- Value of Python's `re.DOTALL` flag.  In
`FieldRules.eval_rules` the source calls `v2["__pattern"].search(payload, re.DOTALL)`:
the second positional argument of `Pattern.search` is the start position
`pos`, not a flag set, so the search starts at character index 16. -/
def RE_DOTALL : Nat := 16

/-- `pattern.search(payload, re.DOTALL)` from the source: a literal-pattern
search starting at index `RE_DOTALL = 16`; on success `m.group()` is the
pattern itself. -/
def searchDotall (pat payload : String) : Option String :=
  if isSubstring pat.data (payload.data.drop RE_DOTALL) then some pat else none

/-- The rule-level guard `v["component"] == ".*" or v["__component"].search(component)`
from `FieldRules.eval_rules` (search from position 0). -/
def componentMatch (pat comp : String) : Bool :=
  pat = ".*" || isSubstring pat.data comp.data

/-! ### FieldRules (logreader.py lines 13-51) -/

/-- One field definition of a rule: target field name, extraction pattern and
optional literal override value. -/
structure FieldDef where
  field : String
  pattern : String
  value : Option String
deriving DecidableEq, Repr

/-- One rule: a component pattern and its ordered field definitions. -/
structure Rule where
  component : String
  fields : List FieldDef
deriving DecidableEq, Repr

/-- The output mapping: an insertion-ordered dict from field names to
`value-or-null`; `some none` records an explicitly assigned null. -/
abbrev FieldMap := List (String × Option String)

/-- Dict lookup, `fields.get(k)`: `none` when the key is absent. -/
def getF : FieldMap → String → Option (Option String)
  | [], _ => none
  | (k', v') :: rest, k => if k' = k then some v' else getF rest k

/-- Dict assignment `fields[k] = v`: replaces in place, else appends. -/
def setF : FieldMap → String → Option String → FieldMap
  | [], k, v => [(k, v)]
  | (k', v') :: rest, k, v =>
    if k' = k then (k', v) :: rest else (k', v') :: setF rest k v

/-- The inner field loop of `FieldRules.eval_rules` (logreader.py 42-50):
a field is (re-)evaluated whenever `fields.get(field) is None`, i.e. whenever
the key is absent *or* currently holds null. -/
def evalFields (payload : String) : List FieldDef → FieldMap → FieldMap
  | [], fields => fields
  | fd :: rest, fields =>
    let fields' :=
      if (getF fields fd.field).getD none = none then
        match searchDotall fd.pattern payload, fd.value with
        | some m, none => setF fields fd.field (some m)
        | some _, some v => setF fields fd.field (some v)
        | none, _ => setF fields fd.field none
      else fields
    evalFields payload rest fields'

/-- `FieldRules.eval_rules` continued from an intermediate dict state. -/
def evalRulesFrom (component payload : String) (rules : List Rule)
    (fields : FieldMap) : FieldMap :=
  rules.foldl
    (fun fs r => if componentMatch r.component component then
        evalFields payload r.fields fs
      else fs)
    fields

/-- `FieldRules.eval_rules(component, payload)` (logreader.py 38-51). -/
def eval_rules (rules : List Rule) (component payload : String) : FieldMap :=
  evalRulesFrom component payload rules []

/-! ### OutLogEntry (outlog.py lines 18-85, logreader.py lines 54-115) -/

/-- `OutLogEntry.line_parser` scans a token body up to the next `>`:
returns the token characters and the rest of the line after the `>`,
or `none` when no closing `>` exists (the `pos2 == -1` break). -/
def scanTok : List Char → Option (List Char × List Char)
  | [] => none
  | c :: r =>
    if c = '>' then some ([], r)
    else match scanTok r with
      | some (t, r2) => some (c :: t, r2)
      | none => none

/-- The loop body of `OutLogEntry.line_parser` (outlog.py 34-46): yields the
bracket-delimited tokens of a line together with, for each token, the index
just past its closing `>` (the `pos` values the source yields).  The fuel
argument only makes the recursion structural; each step consumes at least one
character, so fuel `cs.length + 1` is always sufficient. -/
def tokensGo : Nat → List Char → Nat → List (String × Nat)
  | 0, _, _ => []
  | _ + 1, [], _ => []
  | fuel + 1, c :: rest, p =>
    if c = '<' then
      match scanTok rest with
      | some (t, r2) =>
        (String.mk t, p + t.length + 2) :: tokensGo fuel r2 (p + t.length + 2)
      | none => []
    else tokensGo fuel rest (p + 1)

/-- `OutLogEntry.line_parser(line)` as a finished list of (token, position)
pairs (the generator is always consumed left to right by the source). -/
def lineTokens (line : String) : List (String × Nat) :=
  tokensGo (line.data.length + 1) line.data 0

/-- The numeric value of a digit string (Python `int`/`strptime` field
conversion). -/
def digitsToNat (cs : List Char) : Nat :=
  cs.foldl (fun n c => n * 10 + (c.toNat - 48)) 0

/-- The specialised datetime format: `strptime(tok, fmt)` succeeds exactly on
nonempty all-digit tokens and returns the denoted number. -/
def parseDigits (tok : String) : Option Nat :=
  if tok.data ≠ [] ∧ tok.data.all (·.isDigit) then
    some (digitsToNat tok.data)
  else none

/-- `OutLogEntry.parse_datetime(line)` (outlog.py 48-57): parse the first
bracketed token of the line as a timestamp; `None` on `ValueError` or
`StopIteration`. -/
def parse_datetime (line : String) : Option Nat :=
  match lineTokens line with
  | [] => none
  | (t, _) :: _ => parseDigits t

/-- The state of one `OutLogEntry` (outlog.py 23-32 plus the base `LogEntry`
fields of logreader.py 59-67).  `_message`/`_payload` are the memoization
caches of the `message`/`payload` properties.  The derived `exception` field
(and `flow_id` of the SOA variant, mined by regexes in `finish`) is not
modelled: no claim below observes it. -/
structure OutLogEntry where
  time : Option Nat := none
  type : Option String := none
  component : Option String := none
  bea_code : Option String := none
  startinx_payload : Nat := 0
  lines : List String := []
  msgCache : Option String := none
  payloadCache : Option String := none
deriving DecidableEq, Repr

/-- A freshly constructed entry (`LogEntry.__init__` + `OutLogEntry.__init__`). -/
def newEntry : OutLogEntry := {}

/-- `LogEntry.add_line` (logreader.py 69-75): append and invalidate caches. -/
def add_line (e : OutLogEntry) (l : String) : OutLogEntry :=
  { e with lines := e.lines ++ [l], msgCache := none, payloadCache := none }

/-- The `message` property (logreader.py 94-102): memoized join of `lines`
with newlines.  Returns the value together with the updated entry (the cache
write). -/
def messageGet (e : OutLogEntry) : String × OutLogEntry :=
  match e.msgCache with
  | some m => (m, e)
  | none =>
    let m := String.intercalate "\n" e.lines
    (m, { e with msgCache := some m })

/-- The `payload` property (logreader.py 83-92): start from `message`, and
only when the message is strictly longer than `startinx_payload` drop that
prefix — otherwise the *whole* message is kept. -/
def payloadGet (e : OutLogEntry) : String × OutLogEntry :=
  match e.payloadCache with
  | some p => (p, e)
  | none =>
    let (m, e1) := messageGet e
    let p := if e1.startinx_payload < m.length then m.drop e1.startinx_payload else m
    (p, { e1 with payloadCache := some p })

/-- `OutLogEntry.parse_header(line)` (outlog.py 59-74): consume the first
four bracketed tokens, assigning `time`, `type`, `component` and
`(bea_code, startinx_payload)` in that order, then `add_line`; a `ValueError`
from `strptime` or a `StopIteration` from a missing token aborts *after* the
assignments already made, returning `False`. -/
def parse_header (e : OutLogEntry) (line : String) : OutLogEntry × Bool :=
  match lineTokens line with
  | [] => (e, false)
  | (t0, _) :: rest =>
    match parseDigits t0 with
    | none => (e, false)
    | some dt =>
      let e1 := { e with time := some dt }
      match rest with
      | [] => (e1, false)
      | (t1, _) :: rest2 =>
        let e2 := { e1 with type := some t1 }
        match rest2 with
        | [] => (e2, false)
        | (t2, _) :: rest3 =>
          let e3 := { e2 with component := some t2 }
          match rest3 with
          | [] => (e3, false)
          | (t3, p3) :: _ =>
            let e4 := { e3 with bea_code := some t3, startinx_payload := p3 }
            (add_line e4 line, true)

/-- `OutLogEntry.finish` (outlog.py 76-85): scans the `payload` property for
exception names.  Observable effect on the modelled state: the payload (and
message) caches are filled; the mined `exception` string itself is not
modelled (no claim observes it). -/
def finish (e : OutLogEntry) : OutLogEntry :=
  (payloadGet e).2

/-! ### LogReader.find (logreader.py lines 166-219)

The file handle is modelled by the current read position: `seek(pos)` starts
a probe at `pos` and each `read(n)` returns the next `n` characters (clipped
at end of file) and advances the position. -/

/-- `self.handler.read(n)` after the position has reached `pos`. -/
def readAt (file : String) (pos n : Nat) : String :=
  (file.drop pos).take n

/-- `chunk.split("\n")` on the underlying characters: the list of
newline-separated pieces, with an empty final piece when the text ends in a
newline (Python `str.split` semantics). -/
def splitNlChars : List Char → List (List Char)
  | [] => [[]]
  | c :: rest =>
    let r := splitNlChars rest
    if c = '\n' then [] :: r
    else
      match r with
      | h :: t => (c :: h) :: t
      | [] => [[c]]

/-- `chunk.split("\n")` as strings. -/
def splitNl (s : String) : List String :=
  (splitNlChars s.data).map String.mk

/-- The per-probe scan state of `find`: the right/left candidate chunk
positions (`first_pos`/`second_pos`), the file-global position of the last
parsed timestamp (`dt_pos`, `-1` until one is seen), and the number of
timestamps parsed in the current probe (`count`). -/
structure ProbeState where
  first_pos : Option Nat
  second_pos : Option Nat
  dt_pos : Int
  count : Nat
deriving DecidableEq, Repr

/-- The `for l in lines` loop of one chunk in `find` (logreader.py 196-208):
`cp` is `chunk_pos`, `cb` is `current_bytes`.  Every parsed timestamp records
`dt_pos = chunk_pos + current_bytes` and classifies the chunk as a right
candidate (`time <= dt`) or left candidate (`time > dt or chunk_pos == 0`);
the loop breaks once both candidates are present. -/
def probeLines (t : Nat) : List String → Nat → Nat → ProbeState → ProbeState
  | [], _, _, st => st
  | l :: ls, cp, cb, st =>
    let st1 :=
      match parse_datetime l with
      | some d =>
        { st with
          dt_pos := (cp + cb : Nat)
          count := st.count + 1
          first_pos := if t ≤ d then some cp else st.first_pos
          second_pos := if t > d ∨ cp = 0 then some cp else st.second_pos }
      | none => st
    if st1.first_pos.isSome && st1.second_pos.isSome then st1
    else probeLines t ls cp (cb + l.length + 1) st1

/-- The `while count < 2` chunk loop of one probe (logreader.py 191-211):
reads `min(chunk_size, end - start)`-sized chunks from `chunk_pos` until two
timestamps have been seen or `chunk_pos` reaches `endPos`.  Returns the scan
state and the final `chunk_pos`.  `fuel` dominates the number of chunk reads
(each iteration advances `chunk_pos` or stops). -/
def probeChunks (file : String) (t chunk_size startPos endPos : Nat) :
    Nat → Nat → ProbeState → ProbeState × Nat
  | 0, cp, st => (st, cp)
  | fuel + 1, cp, st =>
    if st.count < 2 then
      let chunk := readAt file cp (min chunk_size (endPos - startPos))
      let lines := splitNl chunk
      let st1 := probeLines t lines cp 0 st
      let cp1 := cp + chunk.length
      if cp1 ≥ endPos then (st1, cp1)
      else probeChunks file t chunk_size startPos endPos fuel cp1 st1
    else (st, cp)

/-- The outer binary-search loop of `find` (logreader.py 181-218).  While the
range is wider than 70 bytes, probe the midpoint; classify: a right candidate
only (or no candidate) shrinks `end` to the midpoint, a left candidate only
advances `start` past the scanned chunks, both candidates stop the search.
The returned value is always the current `dt_pos`. -/
def findLoop (file : String) (t chunk_size : Nat) :
    Nat → Nat → Nat → Int → Int
  | 0, _, _, dt_pos => dt_pos
  | fuel + 1, start, endPos, dt_pos =>
    if endPos - start > 70 then
      let pos := start + (endPos - start) / 2
      let (st, cpFinal) :=
        probeChunks file t chunk_size start endPos (file.length + 2) pos
          ⟨none, none, dt_pos, 0⟩
      match st.first_pos, st.second_pos with
      | some _, some _ => st.dt_pos
      | none, some _ => findLoop file t chunk_size fuel cpFinal endPos st.dt_pos
      | _, _ => findLoop file t chunk_size fuel start pos st.dt_pos
    else dt_pos

/-- `LogReader.find(time, chunk_size)` (logreader.py 166-219): binary search
for the position of the first entry whose timestamp is `>= t`; `-1` when no
timestamp is located.  The fuel `file.length + 2` dominates the number of
outer iterations (each shrinks the range). -/
def find (file : String) (t chunk_size : Nat) : Int :=
  findLoop file t chunk_size (file.length + 2) 0 file.length (-1)

/-! ### LogReader.read (logreader.py lines 221-270) -/

/-- The generator state of `read`: the currently open entry, the last
per-line `dt`, the yielded-entry counter `_count` and the yielded entries. -/
structure ReadState where
  entry : Option OutLogEntry
  dt : Option Nat
  yielded : Nat
  out : List OutLogEntry
deriving Repr

/-- The `for inx, l in enumerate(...)` line loop of `read`
(logreader.py 252-267).  A parsed header first finalizes and yields any open
entry (counting it and breaking once `count` is reached), then breaks when
the new time exceeds `time_to`, and otherwise opens the new entry; a
non-header line is appended to the open entry, if any.  The returned flag is
true when the loop broke early (remaining lines of the chunk are skipped). -/
def readLines (timeTo maxCount : Option Nat) :
    List String → ReadState → ReadState × Bool
  | [], st => (st, false)
  | l :: ls, st =>
    let pe := parse_header newEntry l
    let dt? : Option Nat := if pe.2 then pe.1.time else none
    match dt? with
    | some d =>
      match st.entry with
      | some prev =>
        let st1 : ReadState :=
          { st with yielded := st.yielded + 1, out := st.out ++ [finish prev],
                    entry := none, dt := some d }
        if (match maxCount with | some c => decide (st1.yielded ≥ c) | none => false) then
          (st1, true)
        else if (match timeTo with | some tt => decide (d > tt) | none => false) then
          (st1, true)
        else readLines timeTo maxCount ls { st1 with entry := some pe.1 }
      | none =>
        if (match timeTo with | some tt => decide (d > tt) | none => false) then
          ({ st with dt := some d }, true)
        else readLines timeTo maxCount ls { st with entry := some pe.1, dt := some d }
    | none =>
      match st.entry with
      | some prev =>
        readLines timeTo maxCount ls
          { st with entry := some (add_line prev l), dt := none }
      | none => readLines timeTo maxCount ls { st with dt := none }

/-- The chunk loop of `read` (logreader.py 245-268).  Before each chunk the
`while` condition `dt is None or time_to is None or dt <= time_to` is
checked; the chunk is split on newlines, the pending remainder is prefixed to
the first line, and — when the chunk ends exactly in a newline — the trailing
piece of the split (the empty string) is processed as a line of its own.
After the line loop the remainder is always updated to `lines[-1]` (or `""`),
even when the line loop broke early.  At end of file any open entry is
yielded without `finish()` (logreader.py 269-270). -/
def readChunks (file : String) (timeTo maxCount : Option Nat)
    (chunk_size : Nat) : Nat → Nat → String → ReadState → List OutLogEntry
  | 0, _, _, st => st.out
  | fuel + 1, pos, rem, st =>
    if (match st.dt, timeTo with
        | some d, some tt => decide (d ≤ tt)
        | _, _ => true) then
      let chunk := readAt file pos chunk_size
      if chunk.length = 0 then
        st.out ++ (match st.entry with | some e => [e] | none => [])
      else
        let lines0 := splitNl chunk
        let lines := match lines0 with
          | l0 :: rest => (rem ++ l0) :: rest
          | [] => [rem]
        let hasRem := chunk.back ≠ '\n'
        let body := if hasRem then lines.dropLast else lines
        let st1 := (readLines timeTo maxCount body st).1
        let rem1 := if hasRem then (lines.getLast?).getD "" else ""
        readChunks file timeTo maxCount chunk_size fuel (pos + chunk.length) rem1 st1
    else
      st.out ++ (match st.entry with | some e => [e] | none => [])

/-- `LogReader.read(time_from, time_to, count, chunk_size)`
(logreader.py 221-270) as the finite list of yielded entries.  A given
`time_from` first runs `find`; a negative result yields nothing.  The fuel
`file.length + 2` dominates the number of chunk reads (each consumes at least
one character or stops). -/
def read (file : String) (timeFrom timeTo maxCount : Option Nat)
    (chunk_size : Nat) : List OutLogEntry :=
  let startPos : Int := match timeFrom with
    | some tf => find file tf chunk_size
    | none => 0
  if startPos < 0 then []
  else
    readChunks file timeTo maxCount chunk_size (file.length + 2)
      startPos.toNat "" ⟨none, none, 0, []⟩

/-! ### GroupEntry and the grouping cycle (soaoutlog.py lines 26-46, 165-206)

The grouping engine only reads the `time`, `flow_id` and `component` fields
of the `SOAOutLogEntry` instances produced by the reader; a grouped entry is
modelled by exactly these fields. -/

/-- The projection of a `SOAOutLogEntry` seen by the grouping engine:
its parsed header time, the flow id mined from the payload by `finish`
(possibly null), and its component. -/
structure GEntry where
  time : Nat
  flow_id : Option String
  component : String
deriving DecidableEq, Repr

/-- `GroupEntry` state (soaoutlog.py 27-34): the accumulated entries, the
incrementally maintained min/max entry times, and the per-cycle modified
flag.  The lazily mined `_dn`/`_seconds` summary fields are not modelled (no
claim observes them). -/
structure GroupEntry where
  entries : List GEntry
  first_time : Option Nat
  last_time : Option Nat
  modified : Bool
deriving DecidableEq, Repr

/-- The acceptance condition of `GroupEntry.add_entry` (soaoutlog.py 37):
`len(self.entries) == 0 or self.entries[0].flow_id == entry.flow_id`. -/
def flowAccepts (g : GroupEntry) (e : GEntry) : Bool :=
  match g.entries with
  | [] => true
  | e0 :: _ => e0.flow_id = e.flow_id

/-- `GroupEntry.add_entry(entry)` (soaoutlog.py 36-46): accept the entry iff
the group is empty or its *first* entry's flow id equals the entry's flow id
— components are never consulted; on success update `first_time`/`last_time`,
append, and set `modified`. -/
def GroupEntry.add_entry (g : GroupEntry) (e : GEntry) : GroupEntry × Bool :=
  if flowAccepts g e then
    ({ entries := g.entries ++ [e]
       first_time := some (match g.first_time with
         | none => e.time
         | some ft => if e.time < ft then e.time else ft)
       last_time := some (match g.last_time with
         | none => e.time
         | some lt => if lt < e.time then e.time else lt)
       modified := true }, true)
  else (g, false)

/-- `GroupEntry.__init__(entry)` (soaoutlog.py 27-32): a new group starts
empty with `modified = False` and immediately adds the founding entry, so a
newly opened group is born modified. -/
def groupInit (e : GEntry) : GroupEntry :=
  (GroupEntry.add_entry ⟨[], none, none, false⟩ e).1

/-- The `time` property (soaoutlog.py 106-108): the time of the *first
appended* entry, `entries[0].time` — not the minimum `first_time`.  Groups
are always nonempty in the provider (they are created via `groupInit`); the
empty default is never reached there. -/
def gtime (g : GroupEntry) : Nat :=
  match g.entries with
  | e0 :: _ => e0.time
  | [] => 0

/-- The entry-placement loop of `SOAOutLogProvider.update`
(soaoutlog.py 181-187): try `add_entry` on each buffered group in order and
keep the first success; when every group rejects the entry, append a new
group at the end of the buffer. -/
def placeEntry : List GroupEntry → GEntry → List GroupEntry
  | [], e => [groupInit e]
  | g :: gs, e =>
    let r := g.add_entry e
    if r.2 then r.1 :: gs else g :: placeEntry gs e

/-- Steps 1-2 of a polling cycle (soaoutlog.py 174-187): reset every group's
modified flag, then place each newly read entry carrying a non-null flow id. -/
def updateGroups (groups : List GroupEntry) (entries : List GEntry) :
    List GroupEntry :=
  entries.foldl
    (fun gs e => match e.flow_id with
      | none => gs
      | some _ => placeEntry gs e)
    (groups.map (fun g => { g with modified := false }))

/-- Steps 3-4 of a polling cycle (soaoutlog.py 193-205): emit the unmodified
groups whose `time` (= first appended entry's time) is before `time_emit`,
and keep in the buffer exactly the groups whose `time` is at or after
`time_emit`.  Returns `(retained buffer, emitted groups)`; the provider
emits `g.to_dict()` summaries, modelled here by the groups themselves. -/
def updateStep (groups : List GroupEntry) (entries : List GEntry)
    (time_emit : Nat) : List GroupEntry × List GroupEntry :=
  let gs := updateGroups groups entries
  let data := gs.filter (fun g => decide (gtime g < time_emit) && !g.modified)
  let remaining := gs.filter (fun g => decide (time_emit ≤ gtime g))
  (remaining, data)

/-! ### Spec-side definitions and invariants used by the theorems -/

/-- The amended C1 placement, written from the amended claim: append the
entry to the first buffered group whose flow id matches (components are not
consulted), or open a new group at the end of the buffer when no group's
flow id matches. -/
def placeSpec (gs : List GroupEntry) (e : GEntry) : List GroupEntry :=
  match gs.dropWhile (fun g => !flowAccepts g e) with
  | [] => gs ++ [groupInit e]
  | g :: rest => gs.takeWhile (fun g => !flowAccepts g e) ++ (g.add_entry e).1 :: rest

/-- A group built by founding it on `e0` and offering it the further entries
in order (the life of one `GroupEntry` across polling cycles). -/
def mkGroup (e0 : GEntry) (rest : List GEntry) : GroupEntry :=
  rest.foldl (fun g e => (g.add_entry e).1) (groupInit e0)

/-- The uncached `message` value: lines joined with newlines. -/
def messageOf (e : OutLogEntry) : String :=
  String.intercalate "\n" e.lines

/-- The uncached `payload` value as the source computes it: the message with
the first `startinx_payload` characters removed — but only when the message
is strictly longer than `startinx_payload`; otherwise the whole message. -/
def payloadOf (e : OutLogEntry) : String :=
  if e.startinx_payload < (messageOf e).length then
    (messageOf e).drop e.startinx_payload
  else messageOf e

/-- Cache validity: each memoization cache is either empty or holds exactly
the recomputed value.  Every entry the reader produces satisfies this. -/
def cacheOK (e : OutLogEntry) : Prop :=
  (e.msgCache = none ∨ e.msgCache = some (messageOf e)) ∧
  (e.payloadCache = none ∨ e.payloadCache = some (payloadOf e))

/-- `EntryGroup.has_component(component)` (outlog.py 123-124), transcribed
onto the grouped-entry projection: whether some entry of the group has the
given component.  (In the live provider path this check is never invoked.) -/
def has_component (g : GroupEntry) (component : String) : Bool :=
  g.entries.any (fun x => x.component = component)

/-! ### Concrete inputs used by the counterexamples and failing-input runs -/

/-- A log of three single-line entries, each exactly 16 bytes with its
newline, at times 1, 2, 3. -/
def fileC4 : String := "<1> <E> <C> <B>\n<2> <E> <C> <B>\n<3> <E> <C> <B>\n"

/-- A log of one entry whose header line fills the first chunk exactly when
`chunk_size = 16` (boundary right after a newline) and one continuation
line. -/
def fileC5 : String := "<1> <E> <C> <B>\nx\n"

/-- A 156-byte log whose only entry (and only parseable timestamp) is the
header line at offset 0, followed by continuation filler: every binary-search
probe of `find` starts at the midpoint of the remaining range (`>= 39` here)
and the search gives up once the range is at most 70 bytes wide, so the
timestamp at offset 0 — more than one 30-byte read chunk before the first
probed byte — is never seen. -/
def fileC3 : String := "<5> <E> <C> <B>\n" ++ String.mk (List.replicate 140 'x')

/-- A single rule whose only field pattern occurs in the payload solely
before character index 16. -/
def rulesC6 : List Rule := [⟨".*", [⟨"f", "ERR", none⟩]⟩]

/-- First C7 rule: a pattern that matches nowhere, so its field is assigned
an explicit null. -/
def ruleC7a : Rule := ⟨".*", [⟨"f", "ZZZ", none⟩]⟩

/-- Second C7 rule: the same field name with a matching pattern and a literal
override value. -/
def ruleC7b : Rule := ⟨".*", [⟨"f", "A", some "V"⟩]⟩

/-- A payload whose match for `ruleC7b` sits at index 16 (so that the
position-16 search of the source finds it). -/
def payloadC7 : String := String.mk (List.replicate 16 ' ') ++ "A"

/-- The entry parsed from a header line that ends exactly at its fourth
token: `startinx_payload` equals the message length. -/
def entryC8 : OutLogEntry := (parse_header newEntry "<5> <E> <C> <B>").1

/-! ## Theorems -/

set_option maxRecDepth 40000

/-- Claim C1, counterexample: two entries share flow id "7" *and* component
"c".  The claim requires the second entry to open a new group (every
flow-matching group has a conflicting component); the code instead appends
it to the existing group — `update`'s placement loop calls only
`GroupEntry.add_entry`, which never consults components
(`has_component` is not invoked on this path). -/
theorem C1_counterexample :
    has_component (groupInit ⟨0, some "7", "c"⟩) "c" = true ∧
    updateGroups [] [⟨0, some "7", "c"⟩, ⟨1, some "7", "c"⟩] =
      [{ entries := [⟨0, some "7", "c"⟩, ⟨1, some "7", "c"⟩],
         first_time := some 0, last_time := some 1, modified := true }] :=
  ⟨by decide, by decide⟩

/-- Claim C2 (code bug), failing input: a buffered group whose single entry
has time 0 receives a new same-flow entry (time 1) in a cycle whose emission
boundary is 10.  After placement the group is modified and its `time` is
before the boundary, so it is withheld from emission — but the buffer filter
`[g for g in self.groups if g.time >= time_emit]` also removes it
(soaoutlog.py 205): `updateStep` returns no retained group and no emitted
group, so the group is silently dropped and can never be emitted, while the
claim says it is retained for at least one more cycle. -/
theorem C2_modified_group_dropped :
    (updateGroups [groupInit ⟨0, some "1", "a"⟩] [⟨1, some "1", "b"⟩]).map
        (fun g => (gtime g, g.modified)) = [(0, true)] ∧
    updateStep [groupInit ⟨0, some "1", "a"⟩] [⟨1, some "1", "b"⟩] 10 = ([], []) :=
  ⟨by decide, by decide⟩

/-- Claim C3 (code bug), failing input: `fileC3` has strictly increasing
timestamps and contains a parseable entry with timestamp `5 >= 3` — its
first line, which `read` duly yields — yet `find` returns `-1` ("no entry
located", logreader.py 168-169), because every probe of the binary search
starts at the midpoint `>= 35` and the loop gives up once the range is at
most 70 bytes wide without ever scanning the start of the file.  A windowed
`read(time_from = 3)` consequently yields nothing. -/
theorem C3_find_misses_leading_entry :
    parse_datetime "<5> <E> <C> <B>" = some 5 ∧
    (read fileC3 none none none 30).map (fun e => e.time) = [some 5] ∧
    find fileC3 3 30 = -1 ∧
    read fileC3 (some 3) none none 30 = [] :=
  ⟨by decide, by decide, by decide, by decide⟩

/-- Claim C4 (code bug), failing input: `read` over `fileC4` with
`count = 1` and `chunk_size = 16` yields two entries (times 1 and 3).  The
`break` on reaching `count` (logreader.py 261-262) only exits the inner line
loop; the chunk loop continues and later chunks yield further entries, so
the documented limit ("The count parameter can be used to limit the number
of log entries returned") is exceeded. -/
theorem C4_count_exceeded :
    (read fileC4 none none (some 1) 16).map (fun e => e.time) = [some 1, some 3] ∧
    1 < (read fileC4 none none (some 1) 16).length :=
  ⟨by decide, by decide⟩

/-- Claim C5 (code bug), failing input: the same file read with
`chunk_size = 18` (one chunk) versus `chunk_size = 16` (boundary exactly
after the header's newline) produces the same single entry with *different*
line sequences: when a chunk ends in a newline, `chunk.split("\n")` ends in
an empty piece which the line loop treats as a continuation line
(logreader.py 251-252), so each newline-aligned chunk boundary injects an
extra empty line into the open entry. -/
theorem C5_chunking_changes_entries :
    (read fileC5 none none none 18).map (fun e => e.lines) =
      [["<1> <E> <C> <B>", "x", ""]] ∧
    (read fileC5 none none none 16).map (fun e => e.lines) =
      [["<1> <E> <C> <B>", "", "x", ""]] ∧
    (read fileC5 none none none 18).map (fun e => e.lines) ≠
      (read fileC5 none none none 16).map (fun e => e.lines) :=
  ⟨by decide, by decide, by decide⟩

/-- Claim C6 (code bug), failing input: the pattern "ERR" occurs in the
payload "ERROR" (at position 0), yet `eval_rules` assigns null, because
`search(payload, re.DOTALL)` passes `re.DOTALL = 16` as the *start position*
of the match (logreader.py 44): the first 16 characters are excluded from
the search (and DOTALL is not applied).  The same pattern is found once the
occurrence is moved to index 16. -/
theorem C6_search_skips_first_16_chars :
    isSubstring "ERR".data "ERROR".data = true ∧
    eval_rules rulesC6 "comp" "ERROR" = [("f", none)] ∧
    eval_rules rulesC6 "comp" (String.mk (List.replicate 16 ' ') ++ "ERROR") =
      [("f", some "ERR")] :=
  ⟨by decide, by decide, by decide⟩

/-- Claim C7, counterexample: the first rule assigns an explicit null to
field "f" (its pattern matches nowhere); the second rule's definition for
the same field matches and *overwrites* the null with its override value —
the guard `fields.get(field) is None` (logreader.py 43) cannot distinguish
an assigned null from an absent key, so an assigned null is not final,
contrary to the claim. -/
theorem C7_counterexample :
    eval_rules [ruleC7a] "comp" payloadC7 = [("f", none)] ∧
    eval_rules [ruleC7a, ruleC7b] "comp" payloadC7 = [("f", some "V")] :=
  ⟨by decide, by decide⟩

/-- Claim C8, counterexample: for the entry parsed from a header line with
nothing after its fourth token, the message length equals
`startinx_payload`, the remainder after removing that prefix is empty — but
`payload` is the *whole message*, not the empty string: the guard
`len(self._payload) > self.startinx_payload` (logreader.py 90) skips the
removal entirely unless the message is strictly longer than the offset. -/
theorem C8_counterexample :
    (messageGet entryC8).1.length = entryC8.startinx_payload ∧
    ((messageGet entryC8).1.drop entryC8.startinx_payload) = "" ∧
    (payloadGet entryC8).1 = "<5> <E> <C> <B>" ∧
    (payloadGet entryC8).1 ≠ "" :=
  ⟨by decide, by decide, by decide, by decide⟩

/-- Claim C9, counterexample: on a line with a parseable timestamp but only
three bracketed tokens, `parse_header` returns false yet has already
overwritten `time` (and `type`, `component`): the assignments happen one
`next()` at a time before the `StopIteration` aborts (outlog.py 64-68), so a
failed parse does mutate the entry. -/
theorem C9_counterexample :
    newEntry.time = none ∧
    (parse_header newEntry "<7> <E> <C>").2 = false ∧
    (parse_header newEntry "<7> <E> <C>").1.time = some 7 :=
  ⟨by decide, by decide, by decide⟩

/-! ### Supporting lemmas -/

theorem getF_setF (fs : FieldMap) (k1 k2 : String) (v : Option String) :
    getF (setF fs k1 v) k2 = if k1 = k2 then some v else getF fs k2 := by
  induction fs with
  | nil => simp [setF, getF]
  | cons p rest ih =>
    obtain ⟨k', v'⟩ := p
    by_cases h1 : k' = k1
    · subst h1
      by_cases h2 : k' = k2 <;> simp [setF, getF, h2]
    · by_cases h2 : k' = k2
      · subst h2
        have h3 : k1 ≠ k' := fun h => h1 h.symm
        simp [setF, getF, h1, h3]
      · simp [setF, getF, h1, h2, ih]

theorem evalFields_keeps_nonnull (payload : String) (fds : List FieldDef)
    (fs : FieldMap) (k : String) (v : String)
    (h : getF fs k = some (some v)) :
    getF (evalFields payload fds fs) k = some (some v) := by
  induction fds generalizing fs with
  | nil => simpa [evalFields]
  | cons fd rest ih =>
    simp only [evalFields]
    apply ih
    by_cases hk : fd.field = k
    · subst hk
      rw [h]
      simpa using h
    · split
      · split <;> rw [getF_setF] <;> simp [hk, h]
      · exact h

theorem evalRulesFrom_keeps_nonnull (comp payload : String) (rules : List Rule)
    (fs : FieldMap) (k : String) (v : String)
    (h : getF fs k = some (some v)) :
    getF (evalRulesFrom comp payload rules fs) k = some (some v) := by
  induction rules generalizing fs with
  | nil => simpa [evalRulesFrom]
  | cons r rest ih =>
    unfold evalRulesFrom
    simp only [List.foldl_cons]
    by_cases hm : componentMatch r.component comp
    · simp only [hm, if_true]
      exact ih _ (evalFields_keeps_nonnull payload r.fields fs k v h)
    · simp only [hm, if_false]
      exact ih _ h

theorem eval_rules_append_keeps (rs1 rs2 : List Rule) (comp payload : String)
    (k v : String) (h : getF (eval_rules rs1 comp payload) k = some (some v)) :
    getF (eval_rules (rs1 ++ rs2) comp payload) k = some (some v) := by
  have hsplit : eval_rules (rs1 ++ rs2) comp payload =
      evalRulesFrom comp payload rs2 (eval_rules rs1 comp payload) := by
    unfold eval_rules evalRulesFrom
    exact List.foldl_append _ _ rs1 rs2
  rw [hsplit]
  exact evalRulesFrom_keeps_nonnull comp payload rs2 _ k v h

theorem messageGet_val (e : OutLogEntry) (h : cacheOK e) :
    (messageGet e).1 = messageOf e := by
  obtain ⟨hm, _⟩ := h
  cases hc : e.msgCache with
  | none => simp [messageGet, hc, messageOf]
  | some m =>
    rcases hm with h0 | h0
    · rw [hc] at h0; cases h0
    · rw [hc] at h0
      simp [messageGet, hc]
      exact (Option.some_inj.mp h0)

theorem messageGet_state (e : OutLogEntry) (h : cacheOK e) :
    cacheOK (messageGet e).2 ∧
    (messageGet e).2.startinx_payload = e.startinx_payload ∧
    (messageGet e).2.lines = e.lines := by
  obtain ⟨hm, hp⟩ := h
  cases hc : e.msgCache with
  | none =>
    simp only [messageGet, hc]
    refine ⟨⟨?_, ?_⟩, by trivial, by trivial⟩
    · right; simp [messageOf]
    · simpa [cacheOK, messageOf, payloadOf] using hp
  | some m =>
    simp only [messageGet, hc]
    exact ⟨⟨hm, hp⟩, by trivial, by trivial⟩

theorem payloadGet_val (e : OutLogEntry) (h : cacheOK e) :
    (payloadGet e).1 = payloadOf e := by
  obtain ⟨hm, hp⟩ := h
  cases hc : e.payloadCache with
  | some p =>
    rcases hp with h0 | h0
    · rw [hc] at h0; cases h0
    · rw [hc] at h0
      simp [payloadGet, hc]
      exact (Option.some_inj.mp h0)
  | none =>
    have hv := messageGet_val e ⟨hm, hp⟩
    have hs := (messageGet_state e ⟨hm, hp⟩).2.1
    simp only [payloadGet, hc]
    rw [hv, hs]
    simp [payloadOf]

theorem payloadGet_state (e : OutLogEntry) (h : cacheOK e) :
    cacheOK (payloadGet e).2 := by
  obtain ⟨hm, hp⟩ := h
  cases hc : e.payloadCache with
  | some p =>
    simp only [payloadGet, hc]
    exact ⟨hm, hp⟩
  | none =>
    have hv := messageGet_val e ⟨hm, hp⟩
    have hst := messageGet_state e ⟨hm, hp⟩
    obtain ⟨⟨hm2, hp2⟩, hsx, hln⟩ := hst
    simp only [payloadGet, hc]
    constructor
    · rcases hm2 with h0 | h0
      · left; simpa using h0
      · right
        simpa [messageOf, hln] using h0
    · right
      simp only [hv, hsx]
      simp [payloadOf, messageOf, hln]

theorem add_line_cacheOK (e : OutLogEntry) (l : String) :
    cacheOK (add_line e l) :=
  ⟨Or.inl rfl, Or.inl rfl⟩

theorem newEntry_cacheOK : cacheOK newEntry :=
  ⟨Or.inl rfl, Or.inl rfl⟩

theorem parse_header_cacheOK (e : OutLogEntry) (line : String) (h : cacheOK e) :
    cacheOK (parse_header e line).1 := by
  obtain ⟨hm, hp⟩ := h
  unfold parse_header
  cases lineTokens line with
  | nil => exact ⟨hm, hp⟩
  | cons t0 rest =>
    obtain ⟨t0s, p0⟩ := t0
    dsimp only
    cases parseDigits t0s with
    | none => exact ⟨hm, hp⟩
    | some dt =>
      dsimp only
      cases rest with
      | nil => exact ⟨hm, hp⟩
      | cons t1 rest2 =>
        obtain ⟨t1s, p1⟩ := t1
        dsimp only
        cases rest2 with
        | nil => exact ⟨hm, hp⟩
        | cons t2 rest3 =>
          obtain ⟨t2s, p2⟩ := t2
          dsimp only
          cases rest3 with
          | nil => exact ⟨hm, hp⟩
          | cons t3 rest4 =>
            obtain ⟨t3s, p3⟩ := t3
            exact ⟨Or.inl rfl, Or.inl rfl⟩

theorem finish_cacheOK (e : OutLogEntry) (h : cacheOK e) :
    cacheOK (finish e) :=
  payloadGet_state e h

theorem add_entry_nonempty (g : GroupEntry) (e : GEntry) (h : g.entries ≠ []) :
    ((GroupEntry.add_entry g e).1).entries ≠ [] := by
  unfold GroupEntry.add_entry
  by_cases hf : flowAccepts g e <;> simp [hf, h]

theorem groupInit_entries (e : GEntry) : (groupInit e).entries = [e] := rfl

theorem placeEntry_nonempty : ∀ (gs : List GroupEntry) (e : GEntry),
    (∀ g ∈ gs, g.entries ≠ []) → ∀ g2 ∈ placeEntry gs e, g2.entries ≠ [] := by
  intro gs e
  induction gs with
  | nil =>
    intro _ g2 hg2
    simp [placeEntry] at hg2
    subst hg2
    simp [groupInit_entries]
  | cons g gs ih =>
    intro hall g2 hg2
    simp only [placeEntry] at hg2
    by_cases hf : (GroupEntry.add_entry g e).2
    · simp only [hf, if_true] at hg2
      rcases List.mem_cons.mp hg2 with h0 | h0
      · subst h0
        exact add_entry_nonempty g e (hall g (by simp))
      · exact hall g2 (by simp [h0])
    · simp only [hf, if_false] at hg2
      rcases List.mem_cons.mp hg2 with h0 | h0
      · subst h0; exact hall g2 (by simp)
      · exact ih (fun g3 hg3 => hall g3 (by simp [hg3])) g2 h0

theorem foldl_place_nonempty : ∀ (es : List GEntry) (gs0 : List GroupEntry),
    (∀ g ∈ gs0, g.entries ≠ []) →
    ∀ g ∈ es.foldl (fun a e => match e.flow_id with
        | none => a
        | some _ => placeEntry a e) gs0, g.entries ≠ [] := by
  intro es
  induction es with
  | nil => intro gs0 h g hg; exact h g hg
  | cons e es ih =>
    intro gs0 h g hg
    simp only [List.foldl_cons] at hg
    cases hfid : e.flow_id with
    | none =>
      rw [hfid] at hg
      exact ih gs0 h g hg
    | some f =>
      rw [hfid] at hg
      exact ih _ (placeEntry_nonempty gs0 e h) g hg

theorem updateGroups_nonempty (gs : List GroupEntry) (es : List GEntry)
    (h : ∀ g ∈ gs, g.entries ≠ []) :
    ∀ g ∈ updateGroups gs es, g.entries ≠ [] := by
  intro g hg
  unfold updateGroups at hg
  refine foldl_place_nonempty es _ ?_ g hg
  intro g2 hg2
  rcases List.mem_map.mp hg2 with ⟨g3, hg3, hEq⟩
  subst hEq
  exact h g3 hg3

theorem foldl_add_inv : ∀ (rest : List GEntry) (g : GroupEntry) (x : GEntry)
    (xs : List GEntry) (f : Nat),
    g.entries = x :: xs → g.first_time = some f → (∀ e ∈ rest, f ≤ e.time) →
    ∃ ys, (rest.foldl (fun a e => (GroupEntry.add_entry a e).1) g).entries = x :: ys ∧
      (rest.foldl (fun a e => (GroupEntry.add_entry a e).1) g).first_time = some f := by
  intro rest
  induction rest with
  | nil =>
    intro g x xs f h1 h2 _
    exact ⟨xs, h1, h2⟩
  | cons e es ih =>
    intro g x xs f h1 h2 hall
    simp only [List.foldl_cons]
    by_cases hf : flowAccepts g e
    · have hent : ((GroupEntry.add_entry g e).1).entries = x :: (xs ++ [e]) := by
        unfold GroupEntry.add_entry
        simp [hf, h1]
      have hlt : ¬ e.time < f := by
        have := hall e (by simp)
        omega
      have hft : ((GroupEntry.add_entry g e).1).first_time = some f := by
        unfold GroupEntry.add_entry
        simp [hf, h2, hlt]
      exact ih _ x (xs ++ [e]) f hent hft (fun e2 he2 => hall e2 (by simp [he2]))
    · have hsame : (GroupEntry.add_entry g e).1 = g := by
        unfold GroupEntry.add_entry
        simp [hf]
      rw [hsame]
      exact ih g x xs f h1 h2 (fun e2 he2 => hall e2 (by simp [he2]))

/-! ### Amended and confirmed claim theorems -/

/-- Claim C1 (amended): in each polling cycle, an entry carrying a non-null
flow id is appended to the *first* buffered group whose flow id equals the
entry's — components are never consulted — and a new group is opened (at the
end of the buffer) exactly when no group's flow id matches.  `placeSpec` is
that description verbatim; it coincides with the source's placement loop on
all inputs. -/
theorem C1_first_flow_match_wins :
    (∀ gs e, placeEntry gs e = placeSpec gs e) ∧
    (∀ gs es, updateGroups gs es =
      es.foldl (fun a e => match e.flow_id with
          | none => a
          | some _ => placeSpec a e)
        (gs.map (fun g => { g with modified := false }))) := by
  have hp : ∀ gs e, placeEntry gs e = placeSpec gs e := by
    intro gs e
    induction gs with
    | nil => rfl
    | cons g gs ih =>
      by_cases h : flowAccepts g e
      · simp [placeEntry, placeSpec, GroupEntry.add_entry, h, List.dropWhile_cons,
          List.takeWhile_cons]
      · cases hd : gs.dropWhile (fun g => !flowAccepts g e) with
        | nil =>
          simp [placeEntry, placeSpec, GroupEntry.add_entry, h, List.dropWhile_cons,
            List.takeWhile_cons, hd] at ih ⊢
          exact ih
        | cons g2 rest =>
          simp [placeEntry, placeSpec, GroupEntry.add_entry, h, List.dropWhile_cons,
            List.takeWhile_cons, hd] at ih ⊢
          exact ih
  refine ⟨hp, ?_⟩
  intro gs es
  unfold updateGroups
  generalize (gs.map (fun g => { g with modified := false })) = gs0
  induction es generalizing gs0 with
  | nil => rfl
  | cons e es ih =>
    simp only [List.foldl_cons]
    cases e.flow_id with
    | none => exact ih gs0
    | some f => rw [hp]; exact ih _

/-- Claim C7 (amended): within one `eval_rules` evaluation, once a *non-null*
value has been assigned to a field name, every later field definition with
the same name — in the same rule or any later rule — leaves that binding
unchanged; an assigned null, by contrast, does not block later definitions
(see the counterexample). -/
theorem C7_first_nonnull_wins :
    (∀ payload fds fs k v, getF fs k = some (some v) →
       getF (evalFields payload fds fs) k = some (some v)) ∧
    (∀ comp payload rules fs k v, getF fs k = some (some v) →
       getF (evalRulesFrom comp payload rules fs) k = some (some v)) ∧
    (∀ rs1 rs2 comp payload k v,
       getF (eval_rules rs1 comp payload) k = some (some v) →
       getF (eval_rules (rs1 ++ rs2) comp payload) k = some (some v)) :=
  ⟨fun payload fds fs k v h => evalFields_keeps_nonnull payload fds fs k v h,
   fun comp payload rules fs k v h =>
     evalRulesFrom_keeps_nonnull comp payload rules fs k v h,
   fun rs1 rs2 comp payload k v h =>
     eval_rules_append_keeps rs1 rs2 comp payload k v h⟩

/-- Witness for C7: a non-null binding produced by the first rule survives a
later rule whose pattern also matches the same field. -/
theorem C7_witness :
    getF (eval_rules ([ruleC7b] ++ [ruleC7a]) "comp" payloadC7) "f" =
      some (some "V") :=
  C7_first_nonnull_wins.2.2 [ruleC7b] [ruleC7a] "comp" payloadC7 "f" "V" (by decide)

/-- Claim C8 (amended): for every entry whose memoization caches are valid —
which all reader-produced entries are, since the fresh entry starts with
empty caches and every operation preserves validity — the `message` property
returns exactly `lines` joined with newlines, and the `payload` property
returns the message with the first `startinx_payload` characters removed
*when the message is strictly longer than that offset*, and the whole
message otherwise. -/
theorem C8_message_payload :
    (∀ e, cacheOK e →
       (messageGet e).1 = messageOf e ∧ (payloadGet e).1 = payloadOf e) ∧
    (∀ e l, cacheOK (add_line e l)) ∧
    cacheOK newEntry ∧
    (∀ e line, cacheOK e → cacheOK (parse_header e line).1) ∧
    (∀ e, cacheOK e → cacheOK (finish e)) :=
  ⟨fun e h => ⟨messageGet_val e h, payloadGet_val e h⟩,
   add_line_cacheOK, newEntry_cacheOK, parse_header_cacheOK, finish_cacheOK⟩

/-- Witness for C8: the characterization evaluated on the concrete parsed
entry `entryC8`. -/
theorem C8_witness :
    (messageGet entryC8).1 = messageOf entryC8 ∧
    (payloadGet entryC8).1 = payloadOf entryC8 :=
  C8_message_payload.1 entryC8 ⟨Or.inl rfl, Or.inl rfl⟩

/-- Claim C9 (amended): when `parse_header` fails it returns false and leaves
the entry's `lines`, diagnostic code, payload offset and caches unchanged;
however the `time`, `type` and `component` fields may already have been
overwritten by the tokens parsed before the failure (see the
counterexample), so the entry is not left entirely unchanged. -/
theorem C9_failure_frame : ∀ (e : OutLogEntry) (line : String),
    (parse_header e line).2 = false →
    (parse_header e line).1.lines = e.lines ∧
    (parse_header e line).1.bea_code = e.bea_code ∧
    (parse_header e line).1.startinx_payload = e.startinx_payload ∧
    (parse_header e line).1.msgCache = e.msgCache ∧
    (parse_header e line).1.payloadCache = e.payloadCache := by
  intro e line
  unfold parse_header
  cases lineTokens line with
  | nil => exact fun _ => ⟨rfl, rfl, rfl, rfl, rfl⟩
  | cons t0 rest =>
    obtain ⟨t0s, p0⟩ := t0
    dsimp only
    cases parseDigits t0s with
    | none => exact fun _ => ⟨rfl, rfl, rfl, rfl, rfl⟩
    | some dt =>
      dsimp only
      cases rest with
      | nil => exact fun _ => ⟨rfl, rfl, rfl, rfl, rfl⟩
      | cons t1 rest2 =>
        obtain ⟨t1s, p1⟩ := t1
        dsimp only
        cases rest2 with
        | nil => exact fun _ => ⟨rfl, rfl, rfl, rfl, rfl⟩
        | cons t2 rest3 =>
          obtain ⟨t2s, p2⟩ := t2
          dsimp only
          cases rest3 with
          | nil => exact fun _ => ⟨rfl, rfl, rfl, rfl, rfl⟩
          | cons t3 rest4 =>
            obtain ⟨t3s, p3⟩ := t3
            dsimp only
            intro h
            exact Bool.noConfusion h

/-- Witness for C9: the frame property evaluated on the failing three-token
line. -/
theorem C9_witness :
    (parse_header newEntry "<7> <E> <C>").1.lines = newEntry.lines ∧
    (parse_header newEntry "<7> <E> <C>").1.bea_code = newEntry.bea_code ∧
    (parse_header newEntry "<7> <E> <C>").1.startinx_payload =
      newEntry.startinx_payload ∧
    (parse_header newEntry "<7> <E> <C>").1.msgCache = newEntry.msgCache ∧
    (parse_header newEntry "<7> <E> <C>").1.payloadCache =
      newEntry.payloadCache :=
  C9_failure_frame newEntry "<7> <E> <C>" (by decide)

/-- Claim C10 (confirmed): eviction against the emission boundary is decided
by `entries[0].time` — the time of the first *appended* entry (`gtime`) —
and not by the minimum entry time `first_time`: (1) a group retained by a
polling cycle satisfies `time_emit ≤ entries[0].time`; (2) for a group whose
entries arrived in non-decreasing time order the two values coincide; (3)
for a group that received an earlier-timed entry after its first entry they
differ (`first_time = 3` versus `entries[0].time = 5`), and with boundary 4
the group is retained even though `first_time` lies before the boundary. -/
theorem C10_eviction_uses_head_time :
    (∀ gs es t, (∀ g ∈ gs, g.entries ≠ []) →
       ∀ g ∈ (updateStep gs es t).1, ∃ e0 tl, g.entries = e0 :: tl ∧ t ≤ e0.time) ∧
    (∀ e0 rest, (∀ e ∈ rest, e0.time ≤ e.time) →
       (mkGroup e0 rest).first_time = some e0.time ∧
       gtime (mkGroup e0 rest) = e0.time) ∧
    ((mkGroup ⟨5, some "1", "a"⟩ [⟨3, some "1", "b"⟩]).first_time = some 3 ∧
     gtime (mkGroup ⟨5, some "1", "a"⟩ [⟨3, some "1", "b"⟩]) = 5 ∧
     updateStep [mkGroup ⟨5, some "1", "a"⟩ [⟨3, some "1", "b"⟩]] [] 4 =
       ([{ entries := [⟨5, some "1", "a"⟩, ⟨3, some "1", "b"⟩],
           first_time := some 3, last_time := some 5, modified := false }], [])) := by
  refine ⟨?_, ?_, by decide, by decide, by decide⟩
  · intro gs es t h g hg
    simp only [updateStep, List.mem_filter, Bool.and_eq_true, decide_eq_true_eq] at hg
    obtain ⟨hg1, hg2⟩ := hg
    have hne := updateGroups_nonempty gs es h g hg1
    cases hE : g.entries with
    | nil => exact absurd hE hne
    | cons e0 tl =>
      refine ⟨e0, tl, rfl, ?_⟩
      rw [gtime, hE] at hg2
      exact hg2
  · intro e0 rest hall
    obtain ⟨ys, h1, h2⟩ :=
      foldl_add_inv rest (groupInit e0) e0 [] e0.time rfl rfl hall
    constructor
    · exact h2
    · show gtime (rest.foldl (fun a e => (GroupEntry.add_entry a e).1) (groupInit e0)) = e0.time
      rw [gtime, h1]

/-- Witness for C10: parts (1) and (2) applied at concrete inputs. -/
theorem C10_witness :
    (∃ e0 tl, ({ entries := [⟨5, some "1", "x"⟩], first_time := some 5,
                 last_time := some 5, modified := false } : GroupEntry).entries
        = e0 :: tl ∧ 4 ≤ e0.time) ∧
    ((mkGroup ⟨1, some "1", "a"⟩ [⟨2, some "1", "b"⟩]).first_time = some 1 ∧
     gtime (mkGroup ⟨1, some "1", "a"⟩ [⟨2, some "1", "b"⟩]) = 1) := by
  constructor
  · exact C10_eviction_uses_head_time.1 [groupInit ⟨5, some "1", "x"⟩] [] 4
      (by decide) _ (by decide)
  · exact C10_eviction_uses_head_time.2.1 ⟨1, some "1", "a"⟩ [⟨2, some "1", "b"⟩]
      (by decide)

end YamcOracle
